import Mathlib

/-!
# Verification of the DML method-call and exception-lowering engine

A shallow embedding, in Lean 4, of the method-call / monomorphization /
exception-lowering core of `py/dml/codegen.py` from the
device-modeling-language repository, together with proofs of the
behavioural properties stated in the specification.

The embedding translates the Python source function-by-function:
  * mutable module state (caches, queues, counters, handler stacks)
    becomes explicit state passing;
  * Python exceptions (`raise EARG(...)` etc.) become `Except`;
  * `report(...)` (batch diagnostics) becomes an accumulated error list;
  * Python object identity for cache entries becomes equality of the
    cached values (the cache is an insertion-ordered association list,
    exactly like a Python `dict`).
-/

set_option autoImplicit false

namespace DMLCodegen

/-- Error/diagnostic identifiers used by `codegen.py` (messages.py is out
of scope; only the identity of each error class matters here). -/
inductive Err where
  | EARG (side : String)
  | ERETLVALS (expected actual : Nat)
  | ERETARGS (expected actual : Nat)
  | EASSIGN
  | EARGT (side : String)
  | ERECUR
  | EBADFAIL
  | ENARGT (side : String)
  | ICE
  | fuelOut
deriving DecidableEq, Repr

/-- A DML type as handled by the cache: `id` stands for the Python object
identity (two distinct `DMLType` objects may denote the same type), and
`s` is the stable textual rendering `str(t)` used by
`canonicalize_signature`. -/
structure DMLTy where
  id : Nat
  s : String
deriving DecidableEq, Repr

/-- An input slot of a realized signature: either a folded constant value
(a constant `Expression`, erased from the generated parameter list) or a
concrete DML type. -/
inductive InSlot where
  | constVal (v : Int)
  | ty (t : DMLTy)
deriving DecidableEq, Repr

/-- A realized signature: input slots and output types, as built in
`common_inline` and passed to `untyped_method_instance`. -/
abbrev Sig := List InSlot × List DMLTy

/-- One component of a canonicalized signature: a constant's value or a
type's string rendering. -/
inductive CanonSlot where
  | val (v : Int)
  | str (s : String)
deriving DecidableEq, Repr

abbrev CanonSig := List CanonSlot × List String

/-- `canonicalize_signature`: make a signature hashable by mapping
constant expressions to their value and types to their string
representation (codegen.py lines 2386-2394). -/
def canonicalize_signature (signature : Sig) : CanonSig :=
  (signature.1.map fun sl =>
     match sl with
     | .constVal v => .val v
     | .ty t => .str t.s,
   signature.2.map fun t => t.s)

/-- A method declaration, as read from the object model: named inputs and
outputs each with an optional declared type, a `throws` flag and an array
arity.  The mutable `funcs` cache and `refcount` attached to it are
threaded separately as explicit state. -/
structure MethodDecl where
  name : String
  inp : List (String × Option DMLTy)
  outp : List (String × Option DMLTy)
  throws : Bool
  dimensions : Nat
deriving DecidableEq, Repr

/-- `fully_typed` on a method node: every input and output parameter has
a declared type. -/
def MethodDecl.fully_typed (m : MethodDecl) : Bool :=
  m.inp.all (fun p => p.2.isSome) && m.outp.all (fun p => p.2.isSome)

/-- A C-level type, as far as the generated function signatures are
concerned. -/
inductive CType where
  | bool
  | void
  | ptr (t : CType)
  | base (t : DMLTy)
  | device
  | intT (bits : Nat) (signed : Bool)
deriving DecidableEq, Repr

/-- `c_rettype` (codegen.py lines 2307-2314): a throwing method returns
the failure boolean; otherwise the first output doubles as the C return
value; otherwise void. -/
def c_rettype (outp : List (String × DMLTy)) (throws : Bool) : CType :=
  if throws then .bool
  else
    match outp with
    | [] => .void
    | (_, t) :: _ => .base t

/-- `c_inargs` (codegen.py lines 2316-2326): outputs are passed by
pointer — all of them when the method throws, all but the first (which
is the return value) when it does not. -/
def c_inargs (inp : List (String × CType)) (outp : List (String × DMLTy))
    (throws : Bool) : List (String × CType) :=
  if throws then inp ++ outp.map (fun p => (p.1, CType.ptr (.base p.2)))
  else
    match outp with
    | [] => inp
    | _ :: rest => inp ++ rest.map (fun p => (p.1, CType.ptr (.base p.2)))

/-- `implicit_params` (codegen.py lines 2396-2399): the device struct
pointer and one 32-bit index per array dimension. -/
def implicit_params (method : MethodDecl) : List (String × CType) :=
  ("_dev", CType.device) ::
    (List.range method.dimensions).map
      (fun i => ("_idx" ++ toString i, CType.intT 32 false))

/-- `MethodFunc`: one concrete method instance, i.e. one generated C
function (codegen.py lines 2328-2384).  `inp` slots may be folded
constants; `outp` is always concretely typed.  The derived fields
`rettype` and `cparams` of the Python class are the values of
`c_rettype` and `c_inargs` on these fields and are not duplicated
here. -/
structure MethodFunc where
  methodName : String
  inp : List (String × InSlot)
  outp : List (String × DMLTy)
  throws : Bool
  suffix : String
deriving DecidableEq, Repr

/-- `MethodFunc.get_cname`: the C-level name of the generated function
(`crep.cref` is out of scope and modelled by the method name). -/
def MethodFunc.get_cname (f : MethodFunc) : String :=
  "_DML_M_" ++ f.methodName ++ f.suffix

/-- The per-declaration instance cache `method.funcs`: a Python dict,
i.e. an insertion-ordered association list.  The key is `None` (the
sentinel for the single fully-typed instance) or a canonical signature. -/
abbrev Funcs := List (Option CanonSig × MethodFunc)

/-- First-match association-list lookup (Python `dict` access). -/
def lookupFn {K V : Type} [DecidableEq K] : List (K × V) → K → Option V
  | [], _ => none
  | (k, v) :: rest, key => if k = key then some v else lookupFn rest key

/-- The MethodFunc freshly constructed by `untyped_method_instance` on a
cache miss: input slots are paired with the declared parameter names, the
suffix is derived from the current cache size. -/
def freshUntypedFunc (method : MethodDecl) (funcs : Funcs) (signature : Sig) :
    MethodFunc :=
  { methodName := method.name
    inp := List.zipWith (fun stype (p : String × Option DMLTy) =>
      (p.1, stype)) signature.1 method.inp
    outp := List.zipWith (fun stype (p : String × Option DMLTy) =>
      (p.1, stype)) signature.2 method.outp
    throws := method.throws
    suffix := "__" ++ toString funcs.length }

/-- `untyped_method_instance`: return the MethodFunc instance for a given
signature, creating and caching it if the canonicalized signature is not
yet in the cache (codegen.py lines 2401-2421). -/
def untyped_method_instance (method : MethodDecl) (funcs : Funcs)
    (signature : Sig) : MethodFunc × Funcs :=
  match lookupFn funcs (some (canonicalize_signature signature)) with
  | some f => (f, funcs)
  | none =>
    (freshUntypedFunc method funcs signature,
     funcs ++ [(some (canonicalize_signature signature),
                freshUntypedFunc method funcs signature)])

/-- The single MethodFunc constructed by `method_instance` for a fully
typed method: parameters keep their declared types, the suffix is empty. -/
def typedFunc (method : MethodDecl) : MethodFunc :=
  { methodName := method.name
    inp := method.inp.map fun p => (p.1, InSlot.ty (p.2.getD ⟨0, ""⟩))
    outp := method.outp.map fun p => (p.1, p.2.getD ⟨0, ""⟩)
    throws := method.throws
    suffix := "" }

/-- `method_instance`: return the MethodFunc instance for a fully typed
method, cached under the sentinel key `None` (codegen.py lines
2423-2433).  The Python `assert method.fully_typed` is modelled by
returning `none` when the assertion would fail. -/
def method_instance (method : MethodDecl) (funcs : Funcs) :
    Option (MethodFunc × Funcs) :=
  if ¬ method.fully_typed then none
  else
    match lookupFn funcs none with
    | some f => some (f, funcs)
    | none => some (typedFunc method, funcs ++ [(none, typedFunc method)])

/-! Concrete sample data used by witness theorems. -/

/-- A sample type object rendering as `"int8"`. -/
def tyA : DMLTy := ⟨1, "int8"⟩

/-- A distinct type object with the same rendering as `tyA` (same type,
different Python object identity). -/
def tyB : DMLTy := ⟨2, "int8"⟩

/-- A sample incompletely-typed method declaration. -/
def sampleUntypedMethod : MethodDecl :=
  { name := "g", inp := [("x", none)], outp := [("y", some tyA)],
    throws := false, dimensions := 0 }

/-- A sample fully-typed method declaration. -/
def sampleTypedMethod : MethodDecl :=
  { name := "f", inp := [("a", some tyA)], outp := [("r", some tyA)],
    throws := false, dimensions := 0 }

/-- A sample signature using `tyA`. -/
def sigA : Sig := ([InSlot.ty tyA], [tyA])

/-- A signature structurally equal to `sigA` after canonicalization but
built from the distinct type object `tyB`. -/
def sigB : Sig := ([InSlot.ty tyB], [tyB])

/-!
## Reference tracker (`mark_method_referenced`, codegen.py lines 2563-2570)

`referenced_methods` is a dict counting references per MethodFunc,
`method_queue` the list of instances whose bodies must be generated, and
each `MethodDecl` carries a `refcount`.  All three are module-level
mutable state, modelled as an explicit record.
-/

structure RefState where
  referenced_methods : List (MethodFunc × Nat)
  method_queue : List MethodFunc
  refcounts : List (String × Nat)
deriving DecidableEq, Repr

/-- The empty module-level state at the start of a compilation. -/
def RefState.initial : RefState := ⟨[], [], []⟩

/-- Increment an association-list counter (Python `d[k] = d.get(k, 0) + 1`
composed over a named key). -/
def bumpCount {K : Type} [DecidableEq K] (l : List (K × Nat)) (k : K) :
    List (K × Nat) :=
  match l with
  | [] => [(k, 1)]
  | (k', n) :: rest =>
    if k' = k then (k', n + 1) :: rest else (k', n) :: bumpCount rest k

/-- `mark_method_referenced`: bump the per-instance reference count and
the declaration's refcount; enqueue the instance for body generation
exactly when the count became 1. -/
def mark_method_referenced (st : RefState) (func : MethodFunc) : RefState :=
  let cnt := (lookupFn st.referenced_methods func).getD 0 + 1
  { referenced_methods := bumpCount st.referenced_methods func
    method_queue :=
      if cnt = 1 then st.method_queue ++ [func] else st.method_queue
    refcounts := bumpCount st.refcounts func.methodName }

/-- First-occurrence deduplication: the order in which distinct elements
first appear in a list. -/
def firstOccurrences {α : Type} [DecidableEq α] (l : List α) : List α :=
  l.foldl (fun seen x => if x ∈ seen then seen else seen ++ [x]) []

/-- A sample MethodFunc instance. -/
def sampleFuncA : MethodFunc := typedFunc sampleTypedMethod

/-- A second, distinct sample MethodFunc instance. -/
def sampleFuncB : MethodFunc :=
  typedFunc { sampleTypedMethod with name := "h" }

/-- A sample sequence of `mark_method_referenced` calls. -/
def sampleMarkList : List MethodFunc := [sampleFuncA, sampleFuncB, sampleFuncA]

/-!
## `gensym` (codegen.py lines 72-76)

The global `gensym_counter` is threaded explicitly.  Python's
`str(gensym_counter)` is the decimal rendering of the counter.
-/

/-- Decimal digit list of a natural number, most significant first
(the characters of Python `str(n)`). -/
def decimalDigits (n : Nat) : List Char :=
  if n = 0 then ['0'] else ((Nat.digits 10 n).map Nat.digitChar).reverse

/-- Python `str(n)` for a natural number. -/
def decimalStr (n : Nat) : String :=
  String.mk (decimalDigits n)

/-- `gensym`: increment the global counter and append it to the given
name stem. -/
def gensym (pre : String) (gensym_counter : Nat) : String × Nat :=
  (pre ++ decimalStr (gensym_counter + 1), gensym_counter + 1)

/-!
## The generated-statement intermediate representation

`codegen.py` builds target-language statements through the `mk*`
constructors of `ctree.py` (out of scope).  The constructors actually
used by the functions under verification are embedded as one inductive
per syntactic class.  Variables are split by where they live: proxy
locals created in the callee-call scope (`localVar`) versus
caller-visible lvalues handed in as output arguments (`callerVar`).
-/

inductive CExpr where
  | localVar (n : String)
  | callerVar (n : String)
  | addrOfLocal (n : String)
  | intLit (v : Int)
  | boolLit (b : Bool)
  | litStr (s : String)
  | callApply (fname : String) (args : List CExpr)
deriving Repr

inductive CStmt where
  | declareVar (n : String) (init : Int)
  | copyData (src dst : CExpr)
  | exprStmt (e : CExpr)
  | ifExpr (cond : CExpr) (thn : CStmt)
  | compound (l : List CStmt)
  | nullStmt
  | assertFalse
  | ret (e : Option CExpr)
  | throwTo (lbl : String)
  | gotoLbl (lbl : String)
  | labelDef (lbl : String)
  | tryCatch (lbl : String) (tb cb : CStmt)
  | returnFromInline (lbl : String)
  | logStmt
deriving Repr

/-!
## `CatchFailure` and `stmt_try` (codegen.py lines 138-148, 1608-1618)

A `CatchFailure` handler owns a lazily allocated label (`self.label`,
initially `None`); its `fail` allocates the label through
`gensym('throw')` on first use and emits a jump to it.
-/

/-- `CatchFailure.fail`: the handler state is the optional label plus
the global gensym counter. -/
def catch_fail (label : Option String) (g : Nat) :
    CStmt × Option String × Nat :=
  match label with
  | none =>
    let (l, g') := gensym "throw" g
    (.throwTo l, some l, g')
  | some l => (.throwTo l, some l, g)

/-- A statement of a `try` block body, as far as the failure handler is
concerned: either a statement whose lowering never touches the handler,
or one that lowers a throw via `Failure.fail_stack[-1].fail` (a `throw`
statement or a call to a throwing method). -/
inductive TryPrim where
  | plain (tag : Int)
  | throwStmt
deriving DecidableEq, Repr

/-- Lower one `try`-body statement under a `CatchFailure` handler. -/
def lower_prim (p : TryPrim) (label : Option String) (g : Nat) :
    CStmt × Option String × Nat :=
  match p with
  | .plain t => (.exprStmt (.intLit t), label, g)
  | .throwStmt => catch_fail label g

/-- Lower a `try` block body statement-by-statement, threading the
handler's label state and the gensym counter. -/
def lowerBlock : List TryPrim → Option String → Nat →
    List CStmt × Option String × Nat
  | [], label, g => ([], label, g)
  | p :: ps, label, g =>
    let (s, label', g') := lower_prim p label g
    let (ss, label'', g'') := lowerBlock ps label' g'
    (s :: ss, label'', g'')

inductive Dialect where
  | dml12
  | dml14
deriving DecidableEq, Repr

/-- Modelled from the spec: `ctree.mkTryCatch` is not under `src/`.  Per
the spec (§4.4 *JumpToLabel*), the label is lazily allocated on first
use, and a method that never actually throws never emits a dead label or
dead catch block: with no allocated label the lowered try block is
emitted alone. -/
def mkTryCatch (label : Option String) (tryblock catchblock : CStmt) :
    CStmt :=
  match label with
  | none => tryblock
  | some l => .tryCatch l tryblock catchblock

/-- `stmt_try`: lower a `try`/`catch` construct.  The `catch` body is
lowered under the *enclosing* handler (the `CatchFailure` is exited
first) and is abstracted here as an already-lowered statement. -/
def stmt_try (dialect : Dialect) (tryAst : List TryPrim) (excblock : CStmt)
    (g : Nat) : List CStmt × Nat :=
  let (code, label, g') := lowerBlock tryAst none g
  let tryblock := CStmt.compound code
  if dialect = .dml12 ∧ label = none then ([tryblock], g')
  else ([mkTryCatch label tryblock excblock], g')

/-- No jump label, throw, goto, try/catch or label definition occurs
anywhere in the statement. -/
def labelFree : CStmt → Bool
  | .declareVar _ _ => true
  | .copyData _ _ => true
  | .exprStmt _ => true
  | .ifExpr _ thn => labelFree thn
  | .compound l => l.attach.all fun sc => labelFree sc.1
  | .nullStmt => true
  | .assertFalse => true
  | .ret _ => true
  | .throwTo _ => false
  | .gotoLbl _ => false
  | .labelDef _ => false
  | .tryCatch _ _ _ => false
  | .returnFromInline _ => false
  | .logStmt => true
  decreasing_by
    all_goals simp_wf
    all_goals (have h := List.sizeOf_lt_of_mem sc.2; omega)

/-- The lowering of a `try`-body statement that never touches the
failure handler. -/
def plainLower : TryPrim → CStmt
  | .plain t => .exprStmt (.intLit t)
  | .throwStmt => .nullStmt

/-!
## `RecursiveInlineGuard` and `codegen_inline` (codegen.py lines
2140-2152 and 2194-2305)

The guard's class attribute `stack` holds the method nodes currently
being inlined; entering the guard raises `ERECUR` when the node is
already there, and `contextlib.ExitStack` guarantees the matching
`__exit__` (which removes the node) runs on every exit path, error paths
included.  Method nodes are identified by naturals.  The body expansion
is modelled by its call structure: a table gives, for every method, the
methods its body inlines, in order.  `fuel` only bounds the depth of the
Lean recursion; in Python the guard itself is what stops the recursion.
-/

abbrev GuardStack := List Nat

mutual
/-- One `codegen_inline` call on method `m`: enter the
`RecursiveInlineGuard` (raise `ERECUR` if `m` is already being
expanded), expand the body, and remove `m` from the guard stack on every
exit path, whether the expansion returned or raised. -/
def codegen_inline_model (tbl : Nat → List Nat) (fuel : Nat) (m : Nat)
    (stack : GuardStack) : Except Err Unit × GuardStack :=
  if m ∈ stack then (.error .ERECUR, stack)
  else
    match fuel with
    | 0 => (.error .fuelOut, stack)
    | fuel' + 1 =>
      match inline_seq tbl fuel' (tbl m) (m :: stack) with
      | (r, stack') => (r, stack'.erase m)
termination_by (fuel, 0)

/-- Expand a method body: inline each method the body inlines, left to
right, stopping at the first error (a Python exception propagates). -/
def inline_seq (tbl : Nat → List Nat) (fuel : Nat) (cs : List Nat)
    (stack : GuardStack) : Except Err Unit × GuardStack :=
  match cs with
  | [] => (.ok (), stack)
  | c :: rest =>
    match codegen_inline_model tbl fuel c stack with
    | (.ok _, stack') => inline_seq tbl fuel rest stack'
    | (.error e, stack') => (.error e, stack')
termination_by (fuel, cs.length + 1)
end

/-- A two-method mutual-inlining table: method 1 inlines method 2 and
vice versa. -/
def sampleInlineTbl : Nat → List Nat :=
  fun m => if m = 1 then [2] else if m = 2 then [1] else []

/-!
## Statement semantics for the generated code

The atomicity property of the generated call statement is about runtime
behaviour, so the IR gets a small operational semantics.  A machine
state separates the fresh call-scope locals from caller-visible
variables.  The behaviour of the called C function is a parameter:
`value` is the value the call expression evaluates to (for a throwing
method, nonzero means the call signalled failure), `outvals` the values
the callee stores through the output pointers passed to it, in order.
Statements that leave the enclosing block abnormally (return, goto,
throw, return-from-inline, failed assertion) yield a `transfer` outcome;
a transfer inside a try block is caught by its catch block.
-/

structure CallBehavior where
  value : Int
  outvals : List Int
deriving Repr

structure MachState where
  locals : List (String × Int)
  caller : List (String × Int)
deriving DecidableEq, Repr

/-- Write a variable: update its first binding, or bind it. -/
def setVar (l : List (String × Int)) (n : String) (v : Int) :
    List (String × Int) :=
  match l with
  | [] => [(n, v)]
  | (n', v') :: rest =>
    if n' = n then (n, v) :: rest else (n', v') :: setVar rest n v

/-- Read a variable (0 if unbound). -/
def getVar (l : List (String × Int)) (n : String) : Int :=
  (lookupFn l n).getD 0

/-- The output pointers of a call: the locals whose addresses appear in
the argument list, in order. -/
def ptrTargets (args : List CExpr) : List String :=
  args.filterMap fun a =>
    match a with
    | .addrOfLocal n => some n
    | _ => none

/-- The callee stores `vals` through the pointed-to locals `names`. -/
def writeLocals (s : MachState) (names : List String) (vals : List Int) :
    MachState :=
  let nl := (names.zip vals).foldl (fun l p => setVar l p.1 p.2) s.locals
  { s with locals := nl }

/-- Effectful expression evaluation: a value plus the state after the
call's stores (only `callApply` has a side effect). -/
def evalExpr (beh : CallBehavior) (e : CExpr) (s : MachState) :
    Int × MachState :=
  match e with
  | .localVar n => (getVar s.locals n, s)
  | .callerVar n => (getVar s.caller n, s)
  | .addrOfLocal _ => (0, s)
  | .intLit v => (v, s)
  | .boolLit b => (if b then 1 else 0, s)
  | .litStr _ => (0, s)
  | .callApply _ args =>
    (beh.value, writeLocals s (ptrTargets args) beh.outvals)

inductive ExecOut where
  | normal (s : MachState)
  | transfer (s : MachState)
deriving DecidableEq, Repr

def ExecOut.state : ExecOut → MachState
  | .normal s => s
  | .transfer s => s

mutual
def execStmt (beh : CallBehavior) (stmt : CStmt) (s : MachState) :
    ExecOut :=
  match stmt with
  | .declareVar n v => .normal { s with locals := (n, v) :: s.locals }
  | .copyData src dst =>
    match evalExpr beh src s with
    | (v, s') =>
      match dst with
      | .localVar n => .normal { s' with locals := setVar s'.locals n v }
      | .callerVar n => .normal { s' with caller := setVar s'.caller n v }
      | _ => .normal s'
  | .exprStmt e => .normal (evalExpr beh e s).2
  | .ifExpr c thn =>
    match evalExpr beh c s with
    | (v, s') => if v ≠ 0 then execStmt beh thn s' else .normal s'
  | .compound l => execStmts beh l s
  | .nullStmt => .normal s
  | .labelDef _ => .normal s
  | .logStmt => .normal s
  | .assertFalse => .transfer s
  | .ret _ => .transfer s
  | .throwTo _ => .transfer s
  | .gotoLbl _ => .transfer s
  | .returnFromInline _ => .transfer s
  | .tryCatch _ tb cb =>
    match execStmt beh tb s with
    | .normal s' => .normal s'
    | .transfer s' => execStmt beh cb s'
termination_by sizeOf stmt

def execStmts (beh : CallBehavior) (l : List CStmt) (s : MachState) :
    ExecOut :=
  match l with
  | [] => .normal s
  | st :: rest =>
    match execStmt beh st s with
    | .normal s' => execStmts beh rest s'
    | .transfer s' => .transfer s'
termination_by sizeOf l
end

/-!
## `codegen_call_stmt` and helpers (codegen.py lines 2653-2723)

`typecheck_inargs` and the `mkcall` closure built by `mkcall_method` are
out of scope (ctree/expr_util); the call expression is embedded as a
`callApply` of the C function name to the input arguments followed by
the output pointers (the implicit `_dev`-and-index argument prefix
carries no pointers to locals and is omitted).  The `canstore` check of
`copy_outarg` consults the external type oracle.
-/

/-- The `canstore` predicate of the external type oracle (types.py):
target type, source type ↦ the `ok` component. -/
structure TypeOracle where
  canstore : DMLTy → DMLTy → Bool

/-- An output argument at a call site: a caller-visible lvalue with its
type (`arg.ctype()`) and Python's `Expression.writable` flag. -/
structure OutArg where
  name : String
  ty : DMLTy
  writable : Bool
deriving DecidableEq, Repr

/-- `copy_outarg`: type-check the output argument against the parameter
type and emit the copy from the proxy variable into the real output
argument. -/
def copy_outarg (oracle : TypeOracle) (arg : OutArg) (var : String)
    (parmtype : DMLTy) : Except Err CStmt :=
  if oracle.canstore parmtype arg.ty then
    .ok (.copyData (.localVar var) (.callerVar arg.name))
  else .error (.EARGT "output")

/-- The post-call copy statements of `codegen_call_stmt`, one per
(output argument, output parameter) pair, stopping at the first failed
`canstore` (the raised `EARGT` propagates). -/
def postcodeOf (oracle : TypeOracle) :
    List (OutArg × (String × DMLTy)) → Except Err (List CStmt)
  | [] => .ok []
  | p :: rest =>
    match copy_outarg oracle p.1 ("_ret_" ++ p.2.1) p.2.2 with
    | .error e => .error e
    | .ok st =>
      match postcodeOf oracle rest with
      | .error e => .error e
      | .ok sts => .ok (st :: sts)

/-- `codegen_call_stmt`: generate a statement for calling a method.
`failAllowed`/`failStmt` stand for `Failure.fail_stack[-1].allowed` and
the statement its `fail` returns. -/
def codegen_call_stmt (oracle : TypeOracle) (fname : String)
    (outp : List (String × DMLTy)) (thr : Bool) (inargs : List CExpr)
    (outargs : List OutArg) (failAllowed : Bool) (failStmt : CStmt) :
    Except Err CStmt :=
  if outargs.length ≠ outp.length then .error .ICE
  else
    let return_first_outarg : Bool := !thr && !outp.isEmpty
    let k := if return_first_outarg then 1 else 0
    let pairs := (outargs.drop k).zip (outp.drop k)
    let decls := pairs.map fun p => CStmt.declareVar ("_ret_" ++ p.2.1) 0
    let outargs_conv := pairs.map fun p => CExpr.addrOfLocal ("_ret_" ++ p.2.1)
    match postcodeOf oracle pairs with
    | .error e => .error e
    | .ok postcode =>
      let call_expr := CExpr.callApply fname (inargs ++ outargs_conv)
      if thr then
        if ¬ failAllowed then .error .EBADFAIL
        else .ok (.compound
          (decls ++ [.ifExpr call_expr failStmt] ++ postcode))
      else
        let call_stmt :=
          match outargs with
          | [] => CStmt.exprStmt call_expr
          | a :: _ => CStmt.copyData call_expr (.callerVar a.name)
        .ok (.compound (decls ++ [call_stmt] ++ postcode))

/-!
## `verify_args`, `require_fully_typed`, `codegen_call`,
`try_codegen_invocation` (codegen.py lines 1983-1997, 2592-2600,
2622-2640, 1290-1379)
-/

/-- `verify_args`: arity and writability checks shared by the call and
inline paths.  `raise` is an `Except` error; the reported `EASSIGN` (for
the first non-writable output argument) goes to the returned diagnostic
list, paired with the `False` result. -/
def verify_args (dialect : Dialect) (inp : List (String × Option DMLTy))
    (outp : List (String × Option DMLTy)) (inargs : List CExpr)
    (outargs : List OutArg) : Except Err (Bool × List Err) :=
  if inargs.length ≠ inp.length then .error (.EARG "input")
  else if outargs.length ≠ outp.length then
    (if dialect = .dml12 then .error (.EARG "output")
     else .error (.ERETLVALS outp.length outargs.length))
  else
    match outargs.find? (fun a => !a.writable) with
    | some _ => .ok (false, [.EASSIGN])
    | none => .ok (true, [])

/-- `require_fully_typed`: raise `ENARGT` naming the first untyped
parameter (or `ICE` if none is found) unless the method is fully
typed. -/
def require_fully_typed (method : MethodDecl) : Except Err Unit :=
  if method.fully_typed then .ok ()
  else
    match method.inp.find? (fun p => p.2.isNone) with
    | some _ => .error (.ENARGT "input")
    | none =>
      match method.outp.find? (fun p => p.2.isNone) with
      | some _ => .error (.ENARGT "output")
      | none => .error .ICE

/-- `codegen_call`: generate a call using a direct reference to the
method node (the `compat_dml12` string-constant cast of lines 2629-2633
only wraps string literals and is not modelled). -/
def codegen_call (dialect : Dialect) (oracle : TypeOracle)
    (method : MethodDecl) (funcs : Funcs) (ref : RefState)
    (inargs : List CExpr) (outargs : List OutArg)
    (failAllowed : Bool) (failStmt : CStmt) :
    Except Err (CStmt × Funcs × RefState × List Err) :=
  match verify_args dialect method.inp method.outp inargs outargs with
  | .error e => .error e
  | .ok (false, errs) => .ok (.nullStmt, funcs, ref, errs)
  | .ok (true, errs) =>
    match require_fully_typed method with
    | .error e => .error e
    | .ok _ =>
      match method_instance method funcs with
      | none => .error .ICE
      | some (func, funcs1) =>
        let ref1 := mark_method_referenced ref func
        match codegen_call_stmt oracle func.get_cname func.outp func.throws
            inargs outargs failAllowed failStmt with
        | .error e => .error e
        | .ok stmt => .ok (stmt, funcs1, ref1, errs)

/-- `try_codegen_invocation`, specialized to a DML 1.4 `NodeRef` method
invocation (the dml12-only compatibility paths of lines 1336-1368 are
not modelled).  Returns `none` when the caller should represent the
invocation as a value-producing expression with no statement form.  The
inline path taken for an incompletely typed method (`common_inline`) is
abstracted as the computation `inline_k`. -/
def try_codegen_invocation (oracle : TypeOracle) (method : MethodDecl)
    (funcs : Funcs) (ref : RefState) (inargs : List CExpr)
    (outargs : List OutArg) (failAllowed : Bool) (failStmt : CStmt)
    (inline_k : Except Err (CStmt × Funcs × RefState × List Err)) :
    Except Err (Option (CStmt × Funcs × RefState × List Err)) :=
  if method.fully_typed && !method.throws && method.outp.length ≤ 1 then
    .ok none
  else
    match (if method.fully_typed then
            codegen_call .dml14 oracle method funcs ref inargs outargs
              failAllowed failStmt
           else inline_k) with
    | .error e => .error e
    | .ok r => .ok (some r)

/-!
## `codegen_return` (codegen.py lines 2469-2496) and
`GotoExit_dml14.codegen_exit` (lines 182-198)

On an arity mismatch both report `ERETARGS` and fall back to an
always-false assertion, a statement with no normal fall-through.  The
DML 1.2 shape assertions of lines 2488-2493 (the skipped copies are
`*x = *x` self-copies) are represented by the skip itself.
-/

/-- `codegen_return`: code for returning from a method body with the
given return values. -/
def codegen_return (dialect : Dialect) (outp : List (String × DMLTy))
    (thr : Bool) (retvals : List CExpr) : CStmt × List Err :=
  if outp.length ≠ retvals.length then
    (.assertFalse, [.ERETARGS outp.length retvals.length])
  else
    let ret : CStmt :=
      if thr then .ret (some (.boolLit false))
      else
        match outp, retvals with
        | _ :: _, v :: _ => .ret (some v)
        | _, _ => .ret none
    let return_first_outarg : Bool := !thr && !outp.isEmpty
    let k := if return_first_outarg then 1 else 0
    let pairs := (outp.zip retvals).drop k
    let stmts :=
      if return_first_outarg && dialect = Dialect.dml12 then []
      else pairs.map fun p =>
        CStmt.copyData p.2 (.litStr ("*" ++ p.1.1))
    (.compound (stmts ++ [ret]), [])

/-- The mutable state of a `GotoExit` handler: the lazily-used label and
the `used` flag. -/
structure GotoExitState where
  used : Bool
  label : String
deriving DecidableEq, Repr

/-- `GotoExit_dml14.codegen_exit`: copy the return values into the
handler's captured output variables and jump back to the caller's
control flow; on an arity mismatch report `ERETARGS` and substitute an
always-false assertion without marking the label used. -/
def gotoExit_dml14_codegen_exit (outvars : List CExpr)
    (st : GotoExitState) (retvals : List CExpr) :
    CStmt × GotoExitState × List Err :=
  if retvals.length ≠ outvars.length then
    (.assertFalse, st, [.ERETARGS outvars.length retvals.length])
  else
    (.compound ((outvars.zip retvals).map
        (fun p => CStmt.copyData p.2 p.1)
      ++ [.returnFromInline st.label]),
     { st with used := true }, [])

/-- A type oracle that accepts every store. -/
def oracleTrue : TypeOracle := ⟨fun _ _ => true⟩

/-- A sample fully-typed throwing method declaration. -/
def sampleThrowMethod : MethodDecl :=
  { name := "t", inp := [("a", some tyA)], outp := [("o", some tyA)],
    throws := true, dimensions := 0 }

/-!
## Failure policy stack and exit handler (codegen.py lines 89-101 and
150-167)

`Failure.__enter__` appends the handler to the class attribute
`fail_stack` (top = last element); `__exit__` pops it and asserts it was
the top.  `ExitHandler.__enter__` saves the previous `ExitHandler.current`
in the handler and installs itself; `__exit__` restores the saved one.
The chain of saved handlers is a stack whose head is the current
handler.  Python's `with` statement runs `__exit__` on every exit path,
including when the body raises.

As far as these two stacks are concerned a lowering computation is a
tree of `with Failure(...)` / `with ExitHandler(...)` blocks (as in
`codegen_method`, `codegen_inline` and `stmt_try`) around leaf steps;
`LoweringProg` is that skeleton and `runLowering` its effect on the two
stacks, recording at each leaf step the stacks that step observes.
-/

/-- A failure handler, by its `allowed` class attribute and identity. -/
structure FailureH where
  allowed : Bool
  hid : Nat
deriving DecidableEq, Repr

/-- An exit handler, by identity. -/
structure ExitH where
  eid : Nat
deriving DecidableEq, Repr

structure PolicyState where
  fail_stack : List FailureH
  exit_handlers : List ExitH
deriving DecidableEq, Repr

inductive LoweringProg where
  | leaf (tag : Nat)
  | raiseErr
  | withFail (h : FailureH) (body : LoweringProg)
  | withExit (h : ExitH) (body : LoweringProg)
  | seq (a b : LoweringProg)
deriving DecidableEq, Repr

/-- Run a lowering skeleton: result, final stacks, and the stacks
observed at each executed leaf step.  `withFail` appends the handler to
the end of `fail_stack` on entry and pops the last element on exit
(Python `list.append` / `list.pop`); `withExit` installs the handler as
current and restores the saved one; both exits run also when the body
raised. -/
def runLowering : LoweringProg → PolicyState →
    Except Err Unit × PolicyState × List PolicyState
  | .leaf _, s => (.ok (), s, [s])
  | .raiseErr, s => (.error .ICE, s, [])
  | .withFail h body, s =>
    match runLowering body { s with fail_stack := s.fail_stack ++ [h] } with
    | (r, s1, tr) => (r, { s1 with fail_stack := s1.fail_stack.dropLast }, tr)
  | .withExit h body, s =>
    match runLowering body { s with exit_handlers := h :: s.exit_handlers } with
    | (r, s1, tr) => (r, { s1 with exit_handlers := s1.exit_handlers.tail }, tr)
  | .seq a b, s =>
    match runLowering a s with
    | (.ok _, s1, tr) =>
      match runLowering b s1 with
      | (r, s2, tr2) => (r, s2, tr ++ tr2)
    | (.error e, s1, tr) => (.error e, s1, tr)

/-- The policy layout of `codegen_method` (and of an inline expansion):
a failure handler and an exit handler are pushed around the body
(`with fail_handler, exit_handler:` at codegen.py lines 2539 and
2552). -/
def codegen_method_policies (fh : FailureH) (eh : ExitH)
    (body : LoweringProg) : LoweringProg :=
  .withFail fh (.withExit eh body)

theorem lookupFn_append_right {K V : Type} [DecidableEq K]
    (l₁ l₂ : List (K × V)) (k : K) (h : lookupFn l₁ k = none) :
    lookupFn (l₁ ++ l₂) k = lookupFn l₂ k := by
  induction l₁ with
  | nil => simp
  | cons p rest ih =>
    obtain ⟨k', v'⟩ := p
    simp only [lookupFn] at h
    by_cases hk : k' = k
    · simp [hk] at h
    · rw [if_neg hk] at h
      simpa [lookupFn, hk] using ih h

theorem lookupFn_append_self {K V : Type} [DecidableEq K]
    (l : List (K × V)) (k : K) (v : V) (h : lookupFn l k = none) :
    lookupFn (l ++ [(k, v)]) k = some v := by
  rw [lookupFn_append_right l [(k, v)] k h]
  simp [lookupFn]

theorem untyped_method_instance_cached (method : MethodDecl) (funcs : Funcs)
    (signature : Sig) (f : MethodFunc)
    (h : lookupFn funcs (some (canonicalize_signature signature)) = some f) :
    untyped_method_instance method funcs signature = (f, funcs) := by
  unfold untyped_method_instance
  rw [h]

theorem untyped_method_instance_new (method : MethodDecl) (funcs : Funcs)
    (signature : Sig)
    (h : lookupFn funcs (some (canonicalize_signature signature)) = none) :
    (untyped_method_instance method funcs signature).2
      = funcs ++ [(some (canonicalize_signature signature),
                   (untyped_method_instance method funcs signature).1)] := by
  unfold untyped_method_instance
  rw [h]

/-- **C1.** For an incompletely-typed method and any two signatures with
equal canonical forms, `untyped_method_instance` returns the very
MethodFunc cached by the first call, leaving the cache untouched (no
duplicate entry); and for a fully-typed declaration `method_instance`
succeeds and always yields the single instance stored under the sentinel
key `none`, again leaving the cache untouched on repetition. -/
theorem instance_cache_idempotent (method : MethodDecl) (funcs : Funcs)
    (s1 s2 : Sig) :
    (canonicalize_signature s1 = canonicalize_signature s2 →
      untyped_method_instance method
          (untyped_method_instance method funcs s1).2 s2
        = untyped_method_instance method funcs s1)
    ∧ (method.fully_typed = true →
        ∃ f fs1, method_instance method funcs = some (f, fs1)
          ∧ method_instance method fs1 = some (f, fs1)
          ∧ lookupFn fs1 none = some f) := by
  constructor
  · intro hcanon
    cases h : lookupFn funcs (some (canonicalize_signature s1)) with
    | some f =>
      rw [untyped_method_instance_cached method funcs s1 f h]
      exact untyped_method_instance_cached method funcs s2 f
        (by rw [← hcanon]; exact h)
    | none =>
      have h2 : lookupFn (untyped_method_instance method funcs s1).2
          (some (canonicalize_signature s2)) =
          some (untyped_method_instance method funcs s1).1 := by
        rw [untyped_method_instance_new method funcs s1 h, ← hcanon]
        exact lookupFn_append_self _ _ _ h
      rw [untyped_method_instance_cached method _ s2 _ h2]
  · intro hft
    cases h : lookupFn funcs (none : Option CanonSig) with
    | some f =>
      refine ⟨f, funcs, ?_, ?_, h⟩ <;>
        simp [method_instance, hft, h]
    | none =>
      refine ⟨typedFunc method, funcs ++ [(none, typedFunc method)],
        ?_, ?_, ?_⟩
      · simp [method_instance, hft, h]
      · simp [method_instance, hft, lookupFn_append_self _ _ _ h]
      · exact lookupFn_append_self _ _ _ h

/-- Witness for C1 at concrete inputs: `sigA` and `sigB` canonicalize
equally (same type rendering, distinct type objects), and
`sampleTypedMethod` is fully typed. -/
theorem instance_cache_idempotent_witness :
    (untyped_method_instance sampleUntypedMethod
        (untyped_method_instance sampleUntypedMethod [] sigA).2 sigB
      = untyped_method_instance sampleUntypedMethod [] sigA)
    ∧ (∃ f fs1, method_instance sampleTypedMethod [] = some (f, fs1)
        ∧ method_instance sampleTypedMethod fs1 = some (f, fs1)
        ∧ lookupFn fs1 none = some f) :=
  ⟨(instance_cache_idempotent sampleUntypedMethod [] sigA sigB).1 (by decide),
   (instance_cache_idempotent sampleTypedMethod [] sigA sigB).2 (by decide)⟩

theorem lookupFn_bumpCount {K : Type} [DecidableEq K] (l : List (K × Nat))
    (k k' : K) :
    (lookupFn (bumpCount l k) k').getD 0
      = (lookupFn l k').getD 0 + (if k' = k then 1 else 0) := by
  induction l with
  | nil =>
    by_cases h : k' = k
    · subst h; simp [bumpCount, lookupFn]
    · have h2 : ¬ k = k' := fun hh => h hh.symm
      simp [bumpCount, lookupFn, h, h2]
  | cons p rest ih =>
    obtain ⟨k'', n⟩ := p
    by_cases h1 : k'' = k
    · subst h1
      by_cases h2 : k'' = k'
      · subst h2
        simp [bumpCount, lookupFn]
      · have h3 : ¬ k' = k'' := fun hh => h2 hh.symm
        simp [bumpCount, lookupFn, h2, h3]
    · by_cases h2 : k'' = k'
      · have h3 : ¬ k' = k := fun hh => h1 (h2.trans hh)
        simp [bumpCount, lookupFn, h1, h2, h3]
      · simp [bumpCount, lookupFn, h1, h2, ih]

theorem firstOccurrences_append {α : Type} [DecidableEq α] (l : List α)
    (x : α) :
    firstOccurrences (l ++ [x]) =
      if x ∈ firstOccurrences l then firstOccurrences l
      else firstOccurrences l ++ [x] := by
  simp [firstOccurrences, List.foldl_append]

theorem mem_firstOccurrences {α : Type} [DecidableEq α] (l : List α) :
    ∀ y, y ∈ firstOccurrences l ↔ y ∈ l := by
  induction l using List.reverseRecOn with
  | nil => intro y; simp [firstOccurrences]
  | append_singleton l x ih =>
    intro y
    rw [firstOccurrences_append]
    by_cases hx : x ∈ firstOccurrences l
    · have hx' : x ∈ l := (ih x).mp hx
      rw [if_pos hx]
      simp only [ih y, List.mem_append, List.mem_singleton]
      constructor
      · exact fun h => Or.inl h
      · rintro (h | rfl)
        · exact h
        · exact hx'
    · rw [if_neg hx]
      simp [ih y, List.mem_append]

theorem count_firstOccurrences {α : Type} [DecidableEq α] (l : List α)
    (y : α) : (firstOccurrences l).count y = if y ∈ l then 1 else 0 := by
  induction l using List.reverseRecOn with
  | nil => simp [firstOccurrences]
  | append_singleton l x ih =>
    rw [firstOccurrences_append]
    by_cases hx : x ∈ firstOccurrences l
    · have hx' : x ∈ l := (mem_firstOccurrences l x).mp hx
      rw [if_pos hx, ih]
      by_cases hy : y ∈ l
      · simp [hy, List.mem_append]
      · have hyx : y ≠ x := fun h => hy (h ▸ hx')
        simp [hy, List.mem_append, hyx]
    · have hx' : x ∉ l := fun h => hx ((mem_firstOccurrences l x).mpr h)
      rw [if_neg hx]
      rw [List.count_append, ih]
      by_cases hyx : y = x
      · subst hyx
        simp [hx', List.mem_append]
      · simp [List.mem_append, hyx, List.count_cons]

theorem foldl_mark_method_referenced_spec (fs : List MethodFunc) :
    (fs.foldl mark_method_referenced RefState.initial).method_queue
      = firstOccurrences fs
    ∧ ∀ f, (lookupFn (fs.foldl mark_method_referenced
          RefState.initial).referenced_methods f).getD 0 = fs.count f := by
  induction fs using List.reverseRecOn with
  | nil =>
    constructor
    · simp [RefState.initial, firstOccurrences]
    · intro f; simp [RefState.initial, lookupFn]
  | append_singleton fs f ih =>
    obtain ⟨ihq, ihc⟩ := ih
    rw [List.foldl_append]
    simp only [List.foldl_cons, List.foldl_nil]
    constructor
    · rw [firstOccurrences_append]
      simp only [mark_method_referenced, ihq, ihc f]
      by_cases hf : f ∈ fs
      · have h0 : fs.count f ≠ 0 := by
          simpa [List.count_eq_zero] using hf
        rw [if_neg (by omega), if_pos ((mem_firstOccurrences fs f).mpr hf)]
      · have h0 : fs.count f = 0 := List.count_eq_zero.mpr hf
        rw [h0, if_pos (by norm_num),
          if_neg (fun hm => hf ((mem_firstOccurrences fs f).mp hm))]
    · intro g
      simp only [mark_method_referenced]
      rw [lookupFn_bumpCount, ihc g, List.count_append]
      by_cases hgf : g = f
      · simp [hgf]
      · have h2 : ¬ f = g := fun hh => hgf hh.symm
        simp [hgf, h2]

/-- **C3.** `mark_method_referenced` appends an instance to
`method_queue` exactly when its reference count goes from 0 to 1 (never
on later calls); consequently, after any sequence of calls starting from
the initial compilation state, `method_queue` lists each referenced
instance exactly once in first-referenced order, each count equals the
number of references, and an instance never referenced is absent. -/
theorem method_queue_first_reference_order (fs : List MethodFunc) :
    (∀ st f, (mark_method_referenced st f).method_queue
        = if (lookupFn st.referenced_methods f).getD 0 = 0
          then st.method_queue ++ [f] else st.method_queue)
    ∧ (fs.foldl mark_method_referenced RefState.initial).method_queue
        = firstOccurrences fs
    ∧ (∀ f, (lookupFn (fs.foldl mark_method_referenced
          RefState.initial).referenced_methods f).getD 0 = fs.count f)
    ∧ (∀ f, f ∈ fs → (fs.foldl mark_method_referenced
          RefState.initial).method_queue.count f = 1)
    ∧ (∀ f, f ∉ fs → f ∉ (fs.foldl mark_method_referenced
          RefState.initial).method_queue) := by
  obtain ⟨hq, hc⟩ := foldl_mark_method_referenced_spec fs
  refine ⟨?_, hq, hc, ?_, ?_⟩
  · intro st f
    simp only [mark_method_referenced]
    by_cases h : (lookupFn st.referenced_methods f).getD 0 = 0
    · simp [h]
    · simp [h]
  · intro f hf
    rw [hq, count_firstOccurrences, if_pos hf]
  · intro f hf
    rw [hq, mem_firstOccurrences]
    exact hf

/-- Witness for C3 at a concrete call sequence
`[sampleFuncA, sampleFuncB, sampleFuncA]`. -/
theorem method_queue_first_reference_order_witness :
    sampleFuncA ∈ sampleMarkList
    ∧ (sampleMarkList.foldl mark_method_referenced
        RefState.initial).method_queue.count sampleFuncA = 1 :=
  ⟨by decide,
   (method_queue_first_reference_order sampleMarkList).2.2.2.1 sampleFuncA
     (by decide)⟩

theorem lowerBlock_no_throw (ps : List TryPrim) (label : Option String)
    (g : Nat) (h : ∀ p ∈ ps, p ≠ TryPrim.throwStmt) :
    lowerBlock ps label g = (ps.map plainLower, label, g) := by
  induction ps with
  | nil => simp [lowerBlock]
  | cons p rest ih =>
    have hp := h p (List.mem_cons_self p rest)
    have hrest : ∀ q ∈ rest, q ≠ TryPrim.throwStmt :=
      fun q hq => h q (List.mem_cons_of_mem p hq)
    cases p with
    | plain t =>
      simp [lowerBlock, lower_prim, plainLower, ih hrest]
    | throwStmt => exact absurd rfl hp

theorem labelFree_compound (l : List CStmt) :
    labelFree (CStmt.compound l) = true ↔ ∀ s ∈ l, labelFree s = true := by
  rw [labelFree]
  simp [List.all_eq_true]

/-- **C5.** If the lowering of a `try` block's body never invokes the
failure handler, no label is ever allocated (the gensym counter is not
even consumed) and `stmt_try` emits the lowered try block alone, with no
jump label and no catch block anywhere in the output — in both
dialects. -/
theorem stmt_try_lazy_label (dialect : Dialect) (tryAst : List TryPrim)
    (excblock : CStmt) (g : Nat)
    (h : ∀ p ∈ tryAst, p ≠ TryPrim.throwStmt) :
    (lowerBlock tryAst none g).2 = (none, g)
    ∧ stmt_try dialect tryAst excblock g
        = ([CStmt.compound (tryAst.map plainLower)], g)
    ∧ labelFree (CStmt.compound (tryAst.map plainLower)) = true := by
  have hlb := lowerBlock_no_throw tryAst none g h
  refine ⟨by rw [hlb], ?_, ?_⟩
  · unfold stmt_try
    rw [hlb]
    cases dialect with
    | dml12 => simp
    | dml14 => simp [mkTryCatch]
  · rw [labelFree_compound]
    intro s hs
    obtain ⟨p, hp, rfl⟩ := List.mem_map.mp hs
    cases p with
    | plain t => simp [plainLower, labelFree]
    | throwStmt => exact absurd rfl (h _ hp)

/-- Witness for C5: a two-statement try body that never throws, in DML
1.4, starting from gensym counter 0. -/
theorem stmt_try_lazy_label_witness :
    (∀ p ∈ [TryPrim.plain 1, TryPrim.plain 2],
        p ≠ TryPrim.throwStmt)
    ∧ stmt_try Dialect.dml14 [TryPrim.plain 1, TryPrim.plain 2]
        CStmt.assertFalse 0
      = ([CStmt.compound [CStmt.exprStmt (CExpr.intLit 1),
                          CStmt.exprStmt (CExpr.intLit 2)]], 0) :=
  ⟨by decide,
   (stmt_try_lazy_label Dialect.dml14 [TryPrim.plain 1, TryPrim.plain 2]
      CStmt.assertFalse 0 (by decide)).2.1⟩

/-! Decimal-rendering injectivity, needed for `gensym` freshness. -/

theorem digitChar_inj_lt (a b : Nat) (ha : a < 10) (hb : b < 10)
    (h : Nat.digitChar a = Nat.digitChar b) : a = b := by
  have key : ∀ x : Fin 10, ∀ y : Fin 10,
      Nat.digitChar x.val = Nat.digitChar y.val → x.val = y.val := by decide
  exact key ⟨a, ha⟩ ⟨b, hb⟩ h

theorem map_digitChar_inj : ∀ l1 l2 : List Nat,
    (∀ d ∈ l1, d < 10) → (∀ d ∈ l2, d < 10) →
    l1.map Nat.digitChar = l2.map Nat.digitChar → l1 = l2 := by
  intro l1
  induction l1 with
  | nil =>
    intro l2 _ _ h
    cases l2 with
    | nil => rfl
    | cons d rest => simp at h
  | cons d rest ih =>
    intro l2 h1 h2 h
    cases l2 with
    | nil => simp at h
    | cons d' rest' =>
      simp only [List.map_cons, List.cons.injEq] at h
      have hd : d = d' :=
        digitChar_inj_lt d d' (h1 d (by simp)) (h2 d' (by simp)) h.1
      have hr : rest = rest' :=
        ih rest' (fun x hx => h1 x (by simp [hx]))
          (fun x hx => h2 x (by simp [hx])) h.2
      rw [hd, hr]

theorem decimal_nonzero_repr_ne (b : Nat) (hb : b ≠ 0) :
    ((Nat.digits 10 b).map Nat.digitChar).reverse ≠ ['0'] := by
  intro h
  have h' : (Nat.digits 10 b).map Nat.digitChar = ['0'] := by
    have := congrArg List.reverse h
    simpa using this
  cases e : Nat.digits 10 b with
  | nil => rw [e] at h'; simp at h'
  | cons d rest =>
    rw [e] at h'
    simp only [List.map_cons, List.cons.injEq, List.map_eq_nil_iff] at h'
    have hd10 : d < 10 :=
      Nat.digits_lt_base (by norm_num) (e ▸ List.mem_cons_self d rest)
    have hd0 : d = 0 :=
      digitChar_inj_lt d 0 hd10 (by norm_num) (by simpa using h'.1)
    have hb0 : b = 0 := by
      have := Nat.ofDigits_digits 10 b
      rw [e, h'.2, hd0] at this
      simpa [Nat.ofDigits] using this.symm
    exact hb hb0

theorem decimalDigits_inj (a b : Nat) (h : decimalDigits a = decimalDigits b) :
    a = b := by
  unfold decimalDigits at h
  by_cases ha : a = 0 <;> by_cases hb : b = 0
  · rw [ha, hb]
  · rw [if_pos ha, if_neg hb] at h
    exact absurd h.symm (decimal_nonzero_repr_ne b hb)
  · rw [if_neg ha, if_pos hb] at h
    exact absurd h (decimal_nonzero_repr_ne a ha)
  · rw [if_neg ha, if_neg hb] at h
    have h1 : (Nat.digits 10 a).map Nat.digitChar
        = (Nat.digits 10 b).map Nat.digitChar :=
      List.reverse_injective h
    have h2 : Nat.digits 10 a = Nat.digits 10 b :=
      map_digitChar_inj _ _
        (fun d hd => Nat.digits_lt_base (by norm_num) hd)
        (fun d hd => Nat.digits_lt_base (by norm_num) hd) h1
    have h3 := congrArg (Nat.ofDigits 10) h2
    simpa [Nat.ofDigits_digits] using h3

theorem decimalStr_inj (a b : Nat) (h : decimalStr a = decimalStr b) :
    a = b := by
  unfold decimalStr at h
  have hdata : decimalDigits a = decimalDigits b := by
    have := congrArg String.data h
    simpa using this
  exact decimalDigits_inj a b hdata

theorem string_append_left_cancel (p s t : String) (h : p ++ s = p ++ t) :
    s = t := by
  have hd : p.data ++ s.data = p.data ++ t.data := by
    have := congrArg String.data h
    simpa using this
  have hst : s.data = t.data := List.append_cancel_left hd
  cases s
  cases t
  exact congrArg String.mk hst

/-- **C10.** `gensym` strictly increases the global counter, so the
strings returned by any two calls with the same stem — the second call
starting from a counter at least as large as the one the first call left
behind — are distinct; in particular, the `throw` labels that
`CatchFailure.fail` synthesizes on first use are pairwise distinct
within one compilation. -/
theorem gensym_distinct (pre : String) (c1 c2 : Nat)
    (h : (gensym pre c1).2 ≤ c2) :
    c1 < (gensym pre c1).2
    ∧ (gensym pre c1).1 ≠ (gensym pre c2).1
    ∧ (catch_fail none c1).2.1 ≠ (catch_fail none c2).2.1 := by
  have hlt : c1 + 1 < c2 + 1 := by
    simp only [gensym] at h
    omega
  have hstr : ∀ q : String, q ++ decimalStr (c1 + 1) ≠ q ++ decimalStr (c2 + 1) := by
    intro q hq
    have := decimalStr_inj _ _ (string_append_left_cancel q _ _ hq)
    omega
  refine ⟨by simp [gensym], hstr pre, ?_⟩
  simp only [catch_fail, gensym]
  intro hq
  exact hstr "throw" (Option.some.inj hq)

/-- Witness for C10: the first two labels of a compilation differ. -/
theorem gensym_distinct_witness :
    (gensym "throw" 0).2 ≤ 1
    ∧ (gensym "throw" 0).1 ≠ (gensym "throw" 1).1 :=
  ⟨by decide, (gensym_distinct "throw" 0 1 (by decide)).2.1⟩

theorem inline_seq_stack_restored (tbl : Nat → List Nat) (fuel : Nat)
    (hP : ∀ m stack, (codegen_inline_model tbl fuel m stack).2 = stack) :
    ∀ cs stack, (inline_seq tbl fuel cs stack).2 = stack := by
  intro cs
  induction cs with
  | nil => intro stack; rw [inline_seq]
  | cons c rest ih =>
    intro stack
    rw [inline_seq]
    cases h : codegen_inline_model tbl fuel c stack with
    | mk r stack' =>
      have hs := hP c stack
      rw [h] at hs
      have hs' : stack' = stack := by simpa using hs
      cases r with
      | ok u => simpa [hs'] using ih stack'
      | error e => simpa using hs'

theorem codegen_inline_stack_restored (tbl : Nat → List Nat) :
    ∀ fuel m stack, (codegen_inline_model tbl fuel m stack).2 = stack := by
  intro fuel
  induction fuel with
  | zero =>
    intro m stack
    rw [codegen_inline_model]
    by_cases hm : m ∈ stack <;> simp [hm]
  | succ fuel ih =>
    intro m stack
    rw [codegen_inline_model]
    by_cases hm : m ∈ stack
    · simp [hm]
    · simp only [hm, if_false]
      cases h : inline_seq tbl fuel (tbl m) (m :: stack) with
      | mk r stack' =>
        have hs := inline_seq_stack_restored tbl fuel ih (tbl m) (m :: stack)
        rw [h] at hs
        have hs' : stack' = m :: stack := by simpa using hs
        simp [hs', List.erase_cons_head]

/-- **C4.** Inlining a method node that is already on the
recursive-inline guard's stack (directly or transitively, since the
stack and table are arbitrary) raises `ERECUR` and leaves the stack as
it was; and on every exit of `codegen_inline` — normal return, `ERECUR`,
or any propagating error — the guard stack is restored to its prior
contents. -/
theorem codegen_inline_recursion_guard (tbl : Nat → List Nat)
    (fuel m : Nat) (stack : GuardStack) :
    (m ∈ stack →
      codegen_inline_model tbl fuel m stack = (.error .ERECUR, stack))
    ∧ (codegen_inline_model tbl fuel m stack).2 = stack := by
  constructor
  · intro hm
    rw [codegen_inline_model.eq_def]
    simp [hm]
  · exact codegen_inline_stack_restored tbl fuel m stack

/-- Witness for C4: method 1 (which mutually inlines method 2) expanded
while already on the guard stack raises `ERECUR`; an expansion from an
empty stack restores the empty stack. -/
theorem codegen_inline_recursion_guard_witness :
    (1 ∈ ([1] : GuardStack)
      ∧ codegen_inline_model sampleInlineTbl 3 1 [1]
          = (.error .ERECUR, [1]))
    ∧ (codegen_inline_model sampleInlineTbl 3 2 []).2 = [] :=
  ⟨⟨by decide,
    (codegen_inline_recursion_guard sampleInlineTbl 3 1 [1]).1 (by decide)⟩,
   (codegen_inline_recursion_guard sampleInlineTbl 3 2 []).2⟩

/-- **C7.** Lowering a DML 1.4 `return` whose value count differs from
the declared output count reports `ERETARGS` and substitutes an
always-false assertion — a statement with no normal fall-through (its
execution never falls through to the next statement) — in both lowering
contexts: returning from a generated function body (`codegen_return`)
and returning from an inline expansion
(`GotoExit_dml14.codegen_exit`, which also leaves its handler state,
including the `used` flag, untouched). -/
theorem return_arity_mismatch (dialect : Dialect)
    (outp : List (String × DMLTy)) (thr : Bool)
    (retvals outvars : List CExpr) (st : GotoExitState)
    (beh : CallBehavior) (s : MachState)
    (hlen : outp.length ≠ retvals.length)
    (hov : outvars.length = outp.length) :
    codegen_return dialect outp thr retvals
      = (.assertFalse, [.ERETARGS outp.length retvals.length])
    ∧ gotoExit_dml14_codegen_exit outvars st retvals
      = (.assertFalse, st, [.ERETARGS outvars.length retvals.length])
    ∧ execStmt beh .assertFalse s = .transfer s := by
  refine ⟨?_, ?_, ?_⟩
  · unfold codegen_return
    rw [if_pos hlen]
  · unfold gotoExit_dml14_codegen_exit
    rw [if_pos (by omega)]
  · simp [execStmt]

/-- Witness for C7: one declared output, an empty return-value list. -/
theorem return_arity_mismatch_witness :
    ([("y", tyA)] : List (String × DMLTy)).length ≠ ([] : List CExpr).length
    ∧ codegen_return Dialect.dml14 [("y", tyA)] false []
        = (.assertFalse, [.ERETARGS 1 0]) :=
  ⟨by decide,
   (return_arity_mismatch Dialect.dml14 [("y", tyA)] false []
      [CExpr.callerVar "o"] ⟨false, "exit1"⟩ ⟨0, []⟩ ⟨[], []⟩
      (by decide) (by decide)).1⟩

/-- **C8.** `verify_args` raises `EARG` on an input-arity mismatch;
on an output-arity mismatch it raises `EARG` in DML 1.2 and `ERETLVALS`
in DML 1.4; and when some output argument is not writable it reports
`EASSIGN` and returns false, upon which `codegen_call` lowers the
invocation to a null statement (the diagnostic is batched, not
raised). -/
theorem verify_args_arity_and_writability (dialect : Dialect)
    (oracle : TypeOracle) (method : MethodDecl) (funcs : Funcs)
    (ref : RefState) (inargs : List CExpr) (outargs : List OutArg)
    (failAllowed : Bool) (failStmt : CStmt) :
    (inargs.length ≠ method.inp.length →
      verify_args dialect method.inp method.outp inargs outargs
        = .error (.EARG "input"))
    ∧ (inargs.length = method.inp.length →
       outargs.length ≠ method.outp.length →
      verify_args dialect method.inp method.outp inargs outargs
        = (if dialect = .dml12 then .error (.EARG "output")
           else .error (.ERETLVALS method.outp.length outargs.length)))
    ∧ (inargs.length = method.inp.length →
       outargs.length = method.outp.length →
       (∃ a ∈ outargs, a.writable = false) →
      verify_args dialect method.inp method.outp inargs outargs
        = .ok (false, [.EASSIGN])
      ∧ codegen_call dialect oracle method funcs ref inargs outargs
          failAllowed failStmt
        = .ok (.nullStmt, funcs, ref, [.EASSIGN])) := by
  refine ⟨?_, ?_, ?_⟩
  · intro h
    unfold verify_args
    rw [if_pos h]
  · intro h1 h2
    unfold verify_args
    rw [if_neg (by omega), if_pos h2]
  · intro h1 h2 h3
    have hfind : (outargs.find? (fun a => !a.writable)).isSome := by
      rw [List.find?_isSome]
      obtain ⟨a, ha, hw⟩ := h3
      exact ⟨a, ha, by simp [hw]⟩
    obtain ⟨a, hfa⟩ := Option.isSome_iff_exists.mp hfind
    have hv : verify_args dialect method.inp method.outp inargs outargs
        = .ok (false, [.EASSIGN]) := by
      unfold verify_args
      rw [if_neg (by omega), if_neg (by omega), hfa]
    refine ⟨hv, ?_⟩
    unfold codegen_call
    rw [hv]

/-- Witness for C8 at concrete inputs: a 1-input/1-output method called
with matching arity but a non-writable output argument, in DML 1.4. -/
theorem verify_args_arity_and_writability_witness :
    ([CExpr.intLit 5] : List CExpr).length = sampleTypedMethod.inp.length
    ∧ ([⟨"o", tyA, false⟩] : List OutArg).length
        = sampleTypedMethod.outp.length
    ∧ verify_args Dialect.dml14 sampleTypedMethod.inp sampleTypedMethod.outp
        [CExpr.intLit 5] [⟨"o", tyA, false⟩]
      = .ok (false, [.EASSIGN]) :=
  ⟨by decide, by decide,
   ((verify_args_arity_and_writability Dialect.dml14 ⟨fun _ _ => true⟩
      sampleTypedMethod [] RefState.initial [CExpr.intLit 5]
      [⟨"o", tyA, false⟩] true CStmt.nullStmt).2.2 (by decide) (by decide)
      ⟨⟨"o", tyA, false⟩, by decide, by decide⟩).1⟩

theorem method_instance_lookup (method : MethodDecl) (funcs : Funcs)
    (func : MethodFunc) (funcs1 : Funcs)
    (h : method_instance method funcs = some (func, funcs1)) :
    lookupFn funcs1 none = some func := by
  unfold method_instance at h
  split at h
  · exact absurd h (by simp)
  · cases hl : lookupFn funcs (none : Option CanonSig) with
    | some f =>
      rw [hl] at h
      obtain ⟨rfl, rfl⟩ : func = f ∧ funcs1 = funcs := by
        have := Option.some.inj h
        exact ⟨congrArg Prod.fst this.symm, congrArg Prod.snd this.symm⟩
      exact hl
    | none =>
      rw [hl] at h
      obtain ⟨rfl, rfl⟩ : func = typedFunc method
          ∧ funcs1 = funcs ++ [(none, typedFunc method)] := by
        have := Option.some.inj h
        exact ⟨congrArg Prod.fst this.symm, congrArg Prod.snd this.symm⟩
      exact lookupFn_append_self funcs none (typedFunc method) hl

/-- **C6.** For a fully-typed method that does not throw and has at most
one output, `try_codegen_invocation` produces no statement (`none`,
letting the caller use a value-producing expression with no proxy
variables); a fully-typed method that throws or has more than one
output is instead lowered as a statement built by `codegen_call_stmt`
on its single MethodFunc instance, which is cached under the sentinel
key. -/
theorem try_codegen_invocation_forms (oracle : TypeOracle)
    (method : MethodDecl) (funcs : Funcs) (ref : RefState)
    (inargs : List CExpr) (outargs : List OutArg) (failAllowed : Bool)
    (failStmt : CStmt)
    (inline_k : Except Err (CStmt × Funcs × RefState × List Err)) :
    (method.fully_typed = true → method.throws = false →
     method.outp.length ≤ 1 →
      try_codegen_invocation oracle method funcs ref inargs outargs
        failAllowed failStmt inline_k = .ok none)
    ∧ (∀ errs cstmt func funcs1,
       method.fully_typed = true →
       (method.throws = true ∨ 1 < method.outp.length) →
       verify_args .dml14 method.inp method.outp inargs outargs
         = .ok (true, errs) →
       method_instance method funcs = some (func, funcs1) →
       codegen_call_stmt oracle func.get_cname func.outp func.throws
         inargs outargs failAllowed failStmt = .ok cstmt →
       try_codegen_invocation oracle method funcs ref inargs outargs
           failAllowed failStmt inline_k
         = .ok (some (cstmt, funcs1, mark_method_referenced ref func, errs))
       ∧ lookupFn funcs1 none = some func) := by
  constructor
  · intro hft hthr hout
    unfold try_codegen_invocation
    rw [if_pos]
    simp [hft, hthr, hout]
  · intro errs cstmt func funcs1 hft hto hv hmi hcgs
    have hcall : codegen_call .dml14 oracle method funcs ref inargs outargs
        failAllowed failStmt
        = .ok (cstmt, funcs1, mark_method_referenced ref func, errs) := by
      unfold codegen_call
      have hrft : require_fully_typed method = .ok () := by
        unfold require_fully_typed
        rw [if_pos hft]
      rw [hv, hrft, hmi]
      dsimp only
      rw [hcgs]
    refine ⟨?_, method_instance_lookup method funcs func funcs1 hmi⟩
    unfold try_codegen_invocation
    rw [if_neg]
    · rw [if_pos hft, hcall]
    · intro hc
      rcases hto with hthr | hout
      · simp [hthr] at hc
      · simp at hc
        omega

/-- Witness for C6: `sampleTypedMethod` (non-throwing, one output) gets
the expression form; `sampleThrowMethod` (throwing) gets a statement
calling its cached instance. -/
theorem try_codegen_invocation_forms_witness :
    try_codegen_invocation oracleTrue sampleTypedMethod [] RefState.initial
      [CExpr.intLit 5] [⟨"o", tyA, true⟩] true CStmt.nullStmt (.error .ICE)
      = .ok none
    ∧ try_codegen_invocation oracleTrue sampleThrowMethod [] RefState.initial
        [CExpr.intLit 5] [⟨"o", tyA, true⟩] true CStmt.nullStmt (.error .ICE)
      = .ok (some (.compound
          [.declareVar "_ret_o" 0,
           .ifExpr (.callApply "_DML_M_t"
             [.intLit 5, .addrOfLocal "_ret_o"]) CStmt.nullStmt,
           .copyData (.localVar "_ret_o") (.callerVar "o")],
          [(none, typedFunc sampleThrowMethod)],
          mark_method_referenced RefState.initial
            (typedFunc sampleThrowMethod), [])) :=
  ⟨(try_codegen_invocation_forms oracleTrue sampleTypedMethod []
      RefState.initial [CExpr.intLit 5] [⟨"o", tyA, true⟩] true
      CStmt.nullStmt (.error .ICE)).1 (by decide) (by decide) (by decide),
   ((try_codegen_invocation_forms oracleTrue sampleThrowMethod []
      RefState.initial [CExpr.intLit 5] [⟨"o", tyA, true⟩] true
      CStmt.nullStmt (.error .ICE)).2 []
      (.compound
          [.declareVar "_ret_o" 0,
           .ifExpr (.callApply "_DML_M_t"
             [.intLit 5, .addrOfLocal "_ret_o"]) CStmt.nullStmt,
           .copyData (.localVar "_ret_o") (.callerVar "o")])
      (typedFunc sampleThrowMethod) [(none, typedFunc sampleThrowMethod)]
      (by decide) (Or.inl (by decide)) rfl rfl rfl).1⟩

theorem runLowering_spec (p : LoweringProg) : ∀ s : PolicyState,
    (runLowering p s).2.1 = s
    ∧ ∀ t ∈ (runLowering p s).2.2,
        (∃ l, t.fail_stack = s.fail_stack ++ l)
        ∧ (∃ l, t.exit_handlers = l ++ s.exit_handlers) := by
  induction p with
  | leaf tag =>
    intro s
    refine ⟨rfl, ?_⟩
    intro t ht
    simp only [runLowering, List.mem_singleton] at ht
    subst ht
    exact ⟨⟨[], by simp⟩, ⟨[], by simp⟩⟩
  | raiseErr =>
    intro s
    refine ⟨rfl, ?_⟩
    intro t ht
    simp [runLowering] at ht
  | withFail h body ih =>
    intro s
    have ih2 := ih { s with fail_stack := s.fail_stack ++ [h] }
    constructor
    · simp only [runLowering]
      cases hr : runLowering body { s with fail_stack := s.fail_stack ++ [h] } with
      | mk r rest =>
        obtain ⟨s1, tr⟩ := rest
        have hs1 : s1 = { s with fail_stack := s.fail_stack ++ [h] } := by
          have := ih2.1
          rw [hr] at this
          exact this
        rw [hs1]
        simp
    · intro t ht
      simp only [runLowering] at ht
      cases hr : runLowering body { s with fail_stack := s.fail_stack ++ [h] } with
      | mk r rest =>
        obtain ⟨s1, tr⟩ := rest
        rw [hr] at ht
        have hobs := ih2.2 t (by rw [hr]; exact ht)
        obtain ⟨⟨l1, hf⟩, ⟨l2, he⟩⟩ := hobs
        refine ⟨⟨[h] ++ l1, ?_⟩, ⟨l2, he⟩⟩
        rw [hf]
        simp
  | withExit h body ih =>
    intro s
    have ih2 := ih { s with exit_handlers := h :: s.exit_handlers }
    constructor
    · simp only [runLowering]
      cases hr : runLowering body { s with exit_handlers := h :: s.exit_handlers } with
      | mk r rest =>
        obtain ⟨s1, tr⟩ := rest
        have hs1 : s1 = { s with exit_handlers := h :: s.exit_handlers } := by
          have := ih2.1
          rw [hr] at this
          exact this
        rw [hs1]
        simp
    · intro t ht
      simp only [runLowering] at ht
      cases hr : runLowering body { s with exit_handlers := h :: s.exit_handlers } with
      | mk r rest =>
        obtain ⟨s1, tr⟩ := rest
        rw [hr] at ht
        have hobs := ih2.2 t (by rw [hr]; exact ht)
        obtain ⟨⟨l1, hf⟩, ⟨l2, he⟩⟩ := hobs
        refine ⟨⟨l1, hf⟩, ⟨l2 ++ [h], ?_⟩⟩
        rw [he]
        simp
  | seq a b iha ihb =>
    intro s
    constructor
    · simp only [runLowering]
      cases hra : runLowering a s with
      | mk ra resta =>
        obtain ⟨s1, tra⟩ := resta
        have hs1 : s1 = s := by
          have := (iha s).1
          rw [hra] at this
          exact this
        cases ra with
        | error e =>
          dsimp only
          exact hs1
        | ok u =>
          dsimp only
          cases hrb : runLowering b s1 with
          | mk rb restb =>
            obtain ⟨s2, trb⟩ := restb
            have hs2 : s2 = s1 := by
              have := (ihb s1).1
              rw [hrb] at this
              exact this
            dsimp only
            exact hs2.trans hs1
    · intro t ht
      simp only [runLowering] at ht
      cases hra : runLowering a s with
      | mk ra resta =>
        obtain ⟨s1, tra⟩ := resta
        rw [hra] at ht
        have hs1 : s1 = s := by
          have := (iha s).1
          rw [hra] at this
          exact this
        cases ra with
        | error e =>
          dsimp only at ht
          exact (iha s).2 t (by rw [hra]; exact ht)
        | ok u =>
          dsimp only at ht
          cases hrb : runLowering b s1 with
          | mk rb restb =>
            obtain ⟨s2, trb⟩ := restb
            rw [hrb] at ht
            dsimp only at ht
            simp only [List.mem_append] at ht
            rcases ht with ht | ht
            · exact (iha s).2 t (by rw [hra]; exact ht)
            · have := (ihb s1).2 t (by rw [hrb]; exact ht)
              rw [hs1] at this
              exact this

/-- **C9.** The failure-handler stack and the exit-handler chain obey
strict LIFO discipline: after any lowering computation — including one
that exits with an error — both are restored exactly to their previous
state; and inside a method body generation (which pushes a failure
handler and an exit handler around the body), every step of the body
observes a non-empty failure stack and a current exit handler. -/
theorem policy_stacks_lifo (p : LoweringProg) (fh : FailureH) (eh : ExitH)
    (s : PolicyState) :
    (runLowering p s).2.1 = s
    ∧ (∀ t ∈ (runLowering (codegen_method_policies fh eh p) s).2.2,
        t.fail_stack ≠ [] ∧ t.exit_handlers ≠ []) := by
  refine ⟨(runLowering_spec p s).1, ?_⟩
  intro t ht
  simp only [codegen_method_policies, runLowering] at ht
  set s2 : PolicyState :=
    { fail_stack := s.fail_stack ++ [fh]
      exit_handlers := eh :: s.exit_handlers } with hs2
  cases hr : runLowering p s2 with
  | mk r rest =>
    obtain ⟨s1, tr⟩ := rest
    have hmem : t ∈ tr := by
      rw [hr] at ht
      simpa using ht
    have hobs := (runLowering_spec p s2).2 t (by rw [hr]; exact hmem)
    obtain ⟨⟨l1, hf⟩, ⟨l2, he⟩⟩ := hobs
    constructor
    · rw [hf, hs2]
      simp
    · rw [he, hs2]
      simp

/-- Witness for C9: a single-leaf body wrapped by one failure handler
and one exit handler, starting from empty stacks; the one observed
state has both handlers installed. -/
theorem policy_stacks_lifo_witness :
    (⟨[⟨true, 0⟩], [⟨0⟩]⟩ : PolicyState)
      ∈ (runLowering (codegen_method_policies ⟨true, 0⟩ ⟨0⟩
          (.leaf 7)) ⟨[], []⟩).2.2
    ∧ (⟨[⟨true, 0⟩], [⟨0⟩]⟩ : PolicyState).fail_stack ≠ []
    ∧ (⟨[⟨true, 0⟩], [⟨0⟩]⟩ : PolicyState).exit_handlers ≠ [] :=
  ⟨by decide,
   (policy_stacks_lifo (.leaf 7) ⟨true, 0⟩ ⟨0⟩ ⟨[], []⟩).2
     ⟨[⟨true, 0⟩], [⟨0⟩]⟩ (by decide)⟩

/-! Store lemmas for the statement semantics. -/

theorem getVar_setVar_self (l : List (String × Int)) (n : String) (v : Int) :
    getVar (setVar l n v) n = v := by
  induction l with
  | nil => simp [setVar, getVar, lookupFn]
  | cons p rest ih =>
    obtain ⟨n', v'⟩ := p
    by_cases h : n' = n
    · simp [setVar, getVar, lookupFn, h]
    · simp only [setVar, if_neg h]
      simpa [getVar, lookupFn, h] using ih

theorem getVar_setVar_ne (l : List (String × Int)) (n n' : String) (v : Int)
    (h : n' ≠ n) : getVar (setVar l n v) n' = getVar l n' := by
  induction l with
  | nil =>
    have h2 : ¬ n = n' := fun hh => h hh.symm
    simp [setVar, getVar, lookupFn, h2]
  | cons p rest ih =>
    obtain ⟨m, w⟩ := p
    by_cases hm : m = n
    · subst hm
      have h2 : ¬ m = n' := fun hh => h hh.symm
      simp [setVar, getVar, lookupFn, h2]
    · simp only [setVar, if_neg hm]
      by_cases hm' : m = n'
      · simp [getVar, lookupFn, hm']
      · simpa [getVar, lookupFn, hm'] using ih

theorem getVar_foldl_setVar_notmem (ps : List (String × Int)) :
    ∀ (L : List (String × Int)) (n : String), n ∉ ps.map Prod.fst →
    getVar (ps.foldl (fun l q => setVar l q.1 q.2) L) n = getVar L n := by
  induction ps with
  | nil => intro L n _; rfl
  | cons p rest ih =>
    intro L n hn
    simp only [List.map_cons, List.mem_cons] at hn
    push_neg at hn
    rw [List.foldl_cons]
    rw [ih (setVar L p.1 p.2) n hn.2]
    exact getVar_setVar_ne L p.1 n p.2 hn.1

theorem getVar_writes_of_nodup :
    ∀ (names : List String) (vals : List Int) (L : List (String × Int)),
    names.Nodup →
    ∀ p ∈ names.zip vals,
      getVar ((names.zip vals).foldl (fun l q => setVar l q.1 q.2) L) p.1
        = p.2 := by
  intro names
  induction names with
  | nil => intro vals L _ p hp; simp at hp
  | cons n ns ih =>
    intro vals L hnd p hp
    cases vals with
    | nil => simp at hp
    | cons v vs =>
      simp only [List.zip_cons_cons, List.mem_cons] at hp
      simp only [List.nodup_cons] at hnd
      rcases hp with rfl | hp
      · rw [List.zip_cons_cons, List.foldl_cons]
        have hkeys : n ∉ (ns.zip vs).map Prod.fst := by
          intro hmem
          obtain ⟨q, hq, hq1⟩ := List.mem_map.mp hmem
          have := (List.of_mem_zip hq).1
          exact hnd.1 (hq1 ▸ this)
        rw [getVar_foldl_setVar_notmem _ _ _ hkeys]
        exact getVar_setVar_self L n v
      · rw [List.zip_cons_cons, List.foldl_cons]
        exact ih vs (setVar L n v) hnd.2 p hp

/-! Execution lemmas for the pieces of the generated call statement. -/

theorem execStmts_append (beh : CallBehavior) (l1 l2 : List CStmt) :
    ∀ s, execStmts beh (l1 ++ l2) s
      = match execStmts beh l1 s with
        | .normal s' => execStmts beh l2 s'
        | .transfer s' => .transfer s' := by
  induction l1 with
  | nil => intro s; simp [execStmts]
  | cons st rest ih =>
    intro s
    rw [List.cons_append, execStmts, execStmts]
    cases execStmt beh st s with
    | normal s' => exact ih s'
    | transfer s' => rfl

theorem execStmts_decls (beh : CallBehavior) (names : List String) :
    ∀ s : MachState,
    execStmts beh (names.map fun n => CStmt.declareVar n 0) s
      = .normal { s with
          locals := names.foldl (fun acc n => (n, 0) :: acc) s.locals } := by
  induction names with
  | nil => intro s; simp [execStmts]
  | cons n ns ih =>
    intro s
    rw [List.map_cons, execStmts]
    simp only [execStmt]
    rw [ih, List.foldl_cons]

theorem execStmts_copies (beh : CallBehavior)
    (ps : List (String × String)) :
    ∀ (L c : List (String × Int)),
    execStmts beh
      (ps.map fun p => CStmt.copyData (.localVar p.1) (.callerVar p.2))
      ⟨L, c⟩
      = .normal ⟨L, ps.foldl (fun cc p => setVar cc p.2 (getVar L p.1)) c⟩ := by
  induction ps with
  | nil => intro L c; simp [execStmts]
  | cons p rest ih =>
    intro L c
    rw [List.map_cons, execStmts]
    simp only [execStmt, evalExpr]
    rw [ih, List.foldl_cons]

theorem ptrTargets_append (l1 l2 : List CExpr) :
    ptrTargets (l1 ++ l2) = ptrTargets l1 ++ ptrTargets l2 := by
  simp [ptrTargets, List.filterMap_append]

theorem ptrTargets_addrOf (ns : List String) :
    ptrTargets (ns.map CExpr.addrOfLocal) = ns := by
  induction ns with
  | nil => rfl
  | cons n rest ih => simp [ptrTargets, List.filterMap_cons] at ih ⊢; exact ih

theorem map_zip_getVar :
    ∀ (names cnames : List String) (vals : List Int)
      (L : List (String × Int)),
    names.length = cnames.length → names.length = vals.length →
    (∀ p ∈ names.zip vals, getVar L p.1 = p.2) →
    (names.zip cnames).map (fun p => (p.2, getVar L p.1))
      = cnames.zip vals := by
  intro names
  induction names with
  | nil =>
    intro cnames vals L h1 h2 _
    cases cnames with
    | nil => rfl
    | cons _ _ => simp at h1
  | cons n ns ih =>
    intro cnames vals L h1 h2 hv
    cases cnames with
    | nil => simp at h1
    | cons c cs =>
      cases vals with
      | nil => simp at h2
      | cons v vs =>
        simp only [List.zip_cons_cons, List.map_cons]
        have hn : getVar L n = v := hv (n, v) (by simp)
        rw [hn]
        congr 1
        exact ih cs vs L (by simpa using h1) (by simpa using h2)
          (fun p hp => hv p (by simp [hp]))

theorem postcodeOf_ok_shape (oracle : TypeOracle) :
    ∀ (ps : List (OutArg × (String × DMLTy))) (sts : List CStmt),
    postcodeOf oracle ps = .ok sts →
    sts = ps.map (fun p =>
      CStmt.copyData (.localVar ("_ret_" ++ p.2.1)) (.callerVar p.1.name)) := by
  intro ps
  induction ps with
  | nil =>
    intro sts h
    simp only [postcodeOf] at h
    exact (Except.ok.inj h).symm
  | cons p rest ih =>
    intro sts h
    unfold postcodeOf at h
    cases hc : copy_outarg oracle p.1 ("_ret_" ++ p.2.1) p.2.2 with
    | error e =>
      rw [hc] at h
      exact absurd h (by simp)
    | ok st =>
      rw [hc] at h
      cases hrest : postcodeOf oracle rest with
      | error e =>
        rw [hrest] at h
        exact absurd h (by simp)
      | ok sts2 =>
        rw [hrest] at h
        have hst : st = CStmt.copyData (.localVar ("_ret_" ++ p.2.1))
            (.callerVar p.1.name) := by
          unfold copy_outarg at hc
          split at hc
          · exact (Except.ok.inj hc).symm
          · exact absurd hc (by simp)
        have hh := Except.ok.inj h
        rw [← hh, ih sts2 hrest, hst]
        simp

theorem zip_map_snd {α β γ : Type} :
    ∀ (A : List α) (B : List β) (f : β → γ), A.length = B.length →
    (A.zip B).map (fun p => f p.2) = B.map f := by
  intro A
  induction A with
  | nil =>
    intro B f h
    cases B with
    | nil => rfl
    | cons _ _ => simp at h
  | cons a as ih =>
    intro B f h
    cases B with
    | nil => simp at h
    | cons b bs =>
      simp only [List.zip_cons_cons, List.map_cons]
      rw [ih bs f (by simpa using h)]

theorem zip_map_fst {α β γ : Type} :
    ∀ (A : List α) (B : List β) (f : α → γ), A.length = B.length →
    (A.zip B).map (fun p => f p.1) = A.map f := by
  intro A
  induction A with
  | nil => intro B f h; rfl
  | cons a as ih =>
    intro B f h
    cases B with
    | nil => simp at h
    | cons b bs =>
      simp only [List.zip_cons_cons, List.map_cons]
      rw [ih bs f (by simpa using h)]

theorem codegen_call_stmt_ok_shape (oracle : TypeOracle) (fname : String)
    (outp : List (String × DMLTy)) (inargs : List CExpr)
    (outargs : List OutArg) (failStmt : CStmt) (stmt : CStmt)
    (hgen : codegen_call_stmt oracle fname outp true inargs outargs true
        failStmt = .ok stmt) :
    outargs.length = outp.length
    ∧ stmt = .compound
        ((outargs.zip outp).map
            (fun p => CStmt.declareVar ("_ret_" ++ p.2.1) 0)
         ++ [.ifExpr (.callApply fname (inargs ++ (outargs.zip outp).map
              (fun p => CExpr.addrOfLocal ("_ret_" ++ p.2.1)))) failStmt]
         ++ (outargs.zip outp).map (fun p =>
              CStmt.copyData (.localVar ("_ret_" ++ p.2.1))
                (.callerVar p.1.name))) := by
  unfold codegen_call_stmt at hgen
  by_cases hlen : outargs.length = outp.length
  · rw [if_neg (by omega)] at hgen
    simp only [Bool.not_true, Bool.false_and, Bool.false_eq_true, if_false,
      List.drop_zero] at hgen
    cases hpost : postcodeOf oracle (outargs.zip outp) with
    | error e =>
      rw [hpost] at hgen
      exact absurd hgen (by simp)
    | ok postcode =>
      rw [hpost] at hgen
      simp only [not_true, if_false, ite_true] at hgen
      have hpc := postcodeOf_ok_shape oracle (outargs.zip outp) postcode hpost
      refine ⟨hlen, ?_⟩
      rw [← Except.ok.inj hgen, hpc]
  · rw [if_pos (by omega)] at hgen
    cases hgen

theorem execStmts_decls_pairs (beh : CallBehavior)
    (ps : List (OutArg × (String × DMLTy))) :
    ∀ s : MachState,
    execStmts beh (ps.map fun p => CStmt.declareVar ("_ret_" ++ p.2.1) 0) s
      = .normal { s with locals :=
          (ps.foldl (fun acc p => ("_ret_" ++ p.2.1, 0) :: acc) s.locals) } := by
  induction ps with
  | nil => intro s; simp [execStmts]
  | cons p rest ih =>
    intro s
    rw [List.map_cons, execStmts]
    simp only [execStmt]
    rw [ih, List.foldl_cons]

theorem ptrTargets_conv (ps : List (OutArg × (String × DMLTy))) :
    ptrTargets (ps.map fun p => CExpr.addrOfLocal ("_ret_" ++ p.2.1))
      = ps.map (fun p => "_ret_" ++ p.2.1) := by
  induction ps with
  | nil => rfl
  | cons p rest ih =>
    simp only [List.map_cons, ptrTargets, List.filterMap_cons] at ih ⊢
    rw [ih]

theorem execStmts_copies_pairs (beh : CallBehavior)
    (ps : List (OutArg × (String × DMLTy))) :
    ∀ L c : List (String × Int),
    execStmts beh (ps.map fun p =>
        CStmt.copyData (.localVar ("_ret_" ++ p.2.1)) (.callerVar p.1.name))
      ⟨L, c⟩
      = .normal ⟨L, ps.foldl
          (fun cc p => setVar cc p.1.name (getVar L ("_ret_" ++ p.2.1)))
          c⟩ := by
  induction ps with
  | nil => intro L c; simp [execStmts]
  | cons p rest ih =>
    intro L c
    rw [List.map_cons, execStmts]
    simp only [execStmt, evalExpr]
    rw [ih, List.foldl_cons]

theorem foldl_copyback_eq :
    ∀ (ps : List (OutArg × (String × DMLTy))) (vals : List Int)
      (L c : List (String × Int)),
    (∀ q ∈ (ps.map (fun p => "_ret_" ++ p.2.1)).zip vals,
        getVar L q.1 = q.2) →
    ps.length = vals.length →
    ps.foldl (fun cc p => setVar cc p.1.name (getVar L ("_ret_" ++ p.2.1))) c
      = ((ps.map (fun p => p.1.name)).zip vals).foldl
          (fun cc q => setVar cc q.1 q.2) c := by
  intro ps
  induction ps with
  | nil => intro vals L c _ _; rfl
  | cons p rest ih =>
    intro vals L c hv hlen
    cases vals with
    | nil => simp at hlen
    | cons v vs =>
      simp only [List.map_cons, List.zip_cons_cons, List.foldl_cons]
      have hp : getVar L ("_ret_" ++ p.2.1) = v :=
        hv ("_ret_" ++ p.2.1, v) (by simp)
      rw [hp]
      exact ih vs L (setVar c p.1.name v)
        (fun q hq => hv q (by simp [hq])) (by simpa using hlen)

/-- **C2.** The statement generated for an invocation of a throwing
method writes the caller's output arguments only by copying from the
fresh `_ret_` proxy locals after the call's failure check.  If the call
signals failure (and the active failure handler transfers control, as
`mkThrow`/`mkReturn`/`mkGoto` do), control leaves the statement with
every caller-visible output argument exactly as it was; if the call
succeeds, the declared outputs are each written exactly once, in
declaration order, with the values the callee produced — never a
partial write. -/
theorem codegen_call_stmt_atomicity (oracle : TypeOracle) (fname : String)
    (outp : List (String × DMLTy)) (inargs : List CExpr)
    (outargs : List OutArg) (failStmt : CStmt) (beh : CallBehavior)
    (s : MachState) (stmt : CStmt)
    (hgen : codegen_call_stmt oracle fname outp true inargs outargs true
        failStmt = .ok stmt)
    (hnodup : (outp.map (fun q => "_ret_" ++ q.1)).Nodup)
    (hin : ptrTargets inargs = [])
    (houtlen : beh.outvals.length = outp.length)
    (htr : ∀ s0, execStmt beh failStmt s0 = .transfer s0) :
    (beh.value ≠ 0 →
      ∃ s1, execStmt beh stmt s = .transfer s1 ∧ s1.caller = s.caller)
    ∧ (beh.value = 0 →
      ∃ s1, execStmt beh stmt s = .normal s1
        ∧ s1.caller = ((outargs.map OutArg.name).zip beh.outvals).foldl
            (fun c p => setVar c p.1 p.2) s.caller) := by
  obtain ⟨hlen, hstmt⟩ := codegen_call_stmt_ok_shape oracle fname outp
    inargs outargs failStmt stmt hgen
  subst hstmt
  have hnames_eq : (outargs.zip outp).map (fun p => "_ret_" ++ p.2.1)
      = outp.map (fun q => "_ret_" ++ q.1) :=
    zip_map_snd outargs outp (fun q => "_ret_" ++ q.1) hlen
  have hcnames_eq : (outargs.zip outp).map (fun p => p.1.name)
      = outargs.map OutArg.name :=
    zip_map_fst outargs outp (fun a => a.name) hlen
  have hziplen : (outargs.zip outp).length = outp.length := by
    rw [List.length_zip, hlen, Nat.min_self]
  -- Execute the proxy declarations.
  have hexec1 := execStmts_decls_pairs beh (outargs.zip outp) s
  -- The call writes the callee's outputs to the proxies.
  have htargets : ptrTargets (inargs ++ (outargs.zip outp).map
      (fun p => CExpr.addrOfLocal ("_ret_" ++ p.2.1)))
      = (outargs.zip outp).map (fun p => "_ret_" ++ p.2.1) := by
    rw [ptrTargets_append, hin, ptrTargets_conv]
    rfl
  set L0 : List (String × Int) := (outargs.zip outp).foldl
    (fun acc p => ("_ret_" ++ p.2.1, 0) :: acc) s.locals with hL0
  set pnames : List String :=
    (outargs.zip outp).map (fun p => "_ret_" ++ p.2.1) with hpnames
  set Lw : List (String × Int) :=
    (pnames.zip beh.outvals).foldl (fun l q => setVar l q.1 q.2) L0 with hLw
  have hcall2 : evalExpr beh
      (.callApply fname (inargs ++ (outargs.zip outp).map
        (fun p => CExpr.addrOfLocal ("_ret_" ++ p.2.1))))
      { locals := L0, caller := s.caller }
      = (beh.value, { locals := Lw, caller := s.caller }) := by
    simp only [evalExpr, writeLocals, htargets]
  have hvals : ∀ q ∈ pnames.zip beh.outvals, getVar Lw q.1 = q.2 := by
    refine getVar_writes_of_nodup pnames beh.outvals L0 ?_
    rw [hnames_eq]
    exact hnodup
  have hstep : execStmt beh
      (CStmt.ifExpr (.callApply fname (inargs ++ (outargs.zip outp).map
        (fun p => CExpr.addrOfLocal ("_ret_" ++ p.2.1)))) failStmt)
      { locals := L0, caller := s.caller }
      = (if beh.value ≠ 0
         then ExecOut.transfer { locals := Lw, caller := s.caller }
         else ExecOut.normal { locals := Lw, caller := s.caller }) := by
    simp only [execStmt, hcall2]
    by_cases hv : beh.value ≠ 0
    · rw [if_pos hv, if_pos hv, htr]
    · rw [if_neg hv, if_neg hv]
  have hif : execStmts beh
      [CStmt.ifExpr (.callApply fname (inargs ++ (outargs.zip outp).map
        (fun p => CExpr.addrOfLocal ("_ret_" ++ p.2.1)))) failStmt]
      { locals := L0, caller := s.caller }
      = (if beh.value ≠ 0
         then ExecOut.transfer { locals := Lw, caller := s.caller }
         else ExecOut.normal { locals := Lw, caller := s.caller }) := by
    rw [execStmts, hstep]
    by_cases hv : beh.value ≠ 0
    · rw [if_pos hv]
    · rw [if_neg hv]
      show execStmts beh [] { locals := Lw, caller := s.caller }
        = ExecOut.normal { locals := Lw, caller := s.caller }
      rw [execStmts]
  have hfront : execStmts beh
      ((outargs.zip outp).map (fun p => CStmt.declareVar ("_ret_" ++ p.2.1) 0)
        ++ [CStmt.ifExpr (.callApply fname (inargs ++ (outargs.zip outp).map
             (fun p => CExpr.addrOfLocal ("_ret_" ++ p.2.1)))) failStmt]) s
      = (if beh.value ≠ 0
         then ExecOut.transfer { locals := Lw, caller := s.caller }
         else ExecOut.normal { locals := Lw, caller := s.caller }) := by
    rw [execStmts_append, hexec1]
    dsimp only
    exact hif
  rw [execStmt, execStmts_append, hfront]
  constructor
  · intro hfail
    rw [if_pos hfail]
    dsimp only
    exact ⟨{ locals := Lw, caller := s.caller }, rfl, rfl⟩
  · intro hsucc
    rw [if_neg (by simpa using hsucc)]
    dsimp only
    rw [execStmts_copies_pairs beh (outargs.zip outp) Lw s.caller]
    refine ⟨_, rfl, ?_⟩
    show (outargs.zip outp).foldl
        (fun cc p => setVar cc p.1.name (getVar Lw ("_ret_" ++ p.2.1)))
        s.caller
      = ((outargs.map OutArg.name).zip beh.outvals).foldl
          (fun c p => setVar c p.1 p.2) s.caller
    rw [foldl_copyback_eq (outargs.zip outp) beh.outvals Lw s.caller
      (by rw [← hpnames]; exact hvals) (by rw [hziplen, houtlen])]
    rw [hcnames_eq]

/-- Witness for C2: a call to a throwing one-output method that
succeeds; the caller's output variable `o` receives the callee's value
42, written exactly once. -/
theorem codegen_call_stmt_atomicity_witness :
    ∃ s1,
      execStmt ⟨0, [42]⟩ (CStmt.compound
          [.declareVar "_ret_o" 0,
           .ifExpr (.callApply "_DML_M_t"
             [.intLit 5, .addrOfLocal "_ret_o"]) (.ret (some (.boolLit true))),
           .copyData (.localVar "_ret_o") (.callerVar "o")])
        ⟨[("x", 7)], [("o", 1)]⟩
        = .normal s1
      ∧ s1.caller = ((([⟨"o", tyA, true⟩] : List OutArg).map OutArg.name).zip
          ([42] : List Int)).foldl (fun c p => setVar c p.1 p.2) [("o", 1)] :=
  (codegen_call_stmt_atomicity oracleTrue "_DML_M_t" [("o", tyA)]
    [.intLit 5] [⟨"o", tyA, true⟩] (.ret (some (.boolLit true)))
    ⟨0, [42]⟩ ⟨[("x", 7)], [("o", 1)]⟩
    (.compound
      [.declareVar "_ret_o" 0,
       .ifExpr (.callApply "_DML_M_t"
         [.intLit 5, .addrOfLocal "_ret_o"]) (.ret (some (.boolLit true))),
       .copyData (.localVar "_ret_o") (.callerVar "o")])
    rfl (by decide) rfl (by decide)
    (fun s0 => by simp [execStmt])).2 rfl

end DMLCodegen
